import Mathlib

/-!
Verification of the core algorithms of `mandel.c` (Mandelbrot movie
generator with process- and thread-level parallel decomposition).

The C source is shallowly embedded:
* doubles are modelled as exact rationals (`ℚ`);
* C `int` arithmetic is modelled on `ℤ`, with 32-bit wrap-around made
  explicit (`wrap32`) at the one spot where a product can overflow;
* the per-thread row partition and the per-child frame partition are
  embedded as the closed-form `(start, end)` computations the source
  performs;
* the semaphore hand-off chain between child processes is embedded as a
  small interleaving transition system over semaphore values and
  per-process phases;
* the parent's wait loop and the option handling for `-t` / `-c` are
  embedded as the (pure) result computations they perform.
-/

/-! ## EscapeEvaluator: `iterations_at_point` (mandel.c lines 214-233)

The C loop `while ((x*x + y*y <= 4) && iter < max) { ... iter++; }`
is embedded with the remaining iteration budget `max - iter` as the
recursion fuel; the returned value is the number of iterations actually
performed. -/

def iterGo (x0 y0 x y : ℚ) : Nat → Nat
  | 0 => 0
  | fuel + 1 =>
    if x * x + y * y ≤ 4 then
      iterGo x0 y0 (x * x - y * y + x0) (2 * x * y + y0) fuel + 1
    else 0

def iterations_at_point (x y : ℚ) (maxI : Nat) : Nat :=
  iterGo x y x y maxI

theorem iterGo_le (x0 y0 : ℚ) : ∀ (n : Nat) (x y : ℚ), iterGo x0 y0 x y n ≤ n := by
  intro n
  induction n with
  | zero => intro x y; simp [iterGo]
  | succ k ih =>
    intro x y
    rw [iterGo]
    split
    · exact Nat.succ_le_succ (ih _ _)
    · exact Nat.zero_le _

theorem iterGo_origin (n : Nat) : iterGo 0 0 0 0 n = n := by
  induction n with
  | zero => rfl
  | succ k ih =>
    rw [iterGo]
    rw [if_pos (by norm_num)]
    have h1 : (0 : ℚ) * 0 - 0 * 0 + 0 = 0 := by norm_num
    have h2 : (2 : ℚ) * 0 * 0 + 0 = 0 := by norm_num
    rw [h1, h2, ih]

/-- C5: for all inputs, `iterations_at_point` is a pure function (hence
deterministic) whose result satisfies `0 ≤ result ≤ max` (the lower bound is
inherent in the `Nat` result); moreover the origin never escapes
(`iterations_at_point 0 0 1000 = 1000`) while the point `(2,2)` starts outside
the escape radius, so the loop body never runs and the result `0 < 5`. -/
theorem iterations_at_point_spec :
    (∀ (x y : ℚ) (m : Nat), iterations_at_point x y m ≤ m) ∧
    iterations_at_point 0 0 1000 = 1000 ∧
    iterations_at_point 2 2 1000 < 5 := by
  refine ⟨fun x y m => iterGo_le x y m x y, iterGo_origin 1000, ?_⟩
  have : iterations_at_point 2 2 1000 = 0 := by
    show iterGo 2 2 2 2 1000 = 0
    rw [show (1000 : Nat) = 999 + 1 from rfl, iterGo, if_neg (by norm_num)]
  rw [this]
  exact Nat.zero_lt_succ 4

/-! ## ColorMapper: `iteration_to_color` (mandel.c lines 295-299)

The C source computes `int color = 0xFFFFFF*iters/(double)max`.
Operator precedence makes `0xFFFFFF*iters` a 32-bit `int` product (which
wraps for `iters ≥ 128`; signed overflow is modelled as two's-complement
wrap-around); the wrapped product is then converted to `double`, divided
by `max`, and the assignment back to `int` truncates toward zero.  The
`double` quotient is modelled as the exact rational quotient; for the
operand sizes involved the rounding error cannot move the truncated
value. -/

def wrap32 (n : ℤ) : ℤ := (n + 2 ^ 31) % 2 ^ 32 - 2 ^ 31

def qtrunc (q : ℚ) : ℤ := q.num.tdiv q.den

def iteration_to_color (iters maxI : ℤ) : ℤ :=
  qtrunc (((wrap32 (0xFFFFFF * iters) : ℤ) : ℚ) / ((maxI : ℤ) : ℚ))

theorem wrap32_eq_self {v : ℤ} (h0 : 0 ≤ v) (h1 : v < 2 ^ 31) : wrap32 v = v := by
  unfold wrap32
  rw [Int.emod_eq_of_lt (by omega) (by omega)]
  omega

theorem qtrunc_eq_floor {q : ℚ} (h : 0 ≤ q) : qtrunc q = ⌊q⌋ := by
  unfold qtrunc
  rw [Rat.floor_def]
  exact Int.tdiv_eq_ediv (Rat.num_nonneg.mpr h) (Int.ofNat_nonneg q.den)

theorem color_at_1000 : iteration_to_color 1000 1000 = -402654 := by
  unfold iteration_to_color qtrunc
  rw [show wrap32 (0xFFFFFF * 1000) = -402654184 from by decide]
  norm_num [Rat.div_def]
  decide

theorem color_at_500 : iteration_to_color 500 1000 = -201327 := by
  unfold iteration_to_color qtrunc
  rw [show wrap32 (0xFFFFFF * 500) = -201327092 from by decide]
  norm_num [Rat.div_def]
  decide

theorem color_at_0 : iteration_to_color 0 1000 = 0 := by
  unfold iteration_to_color qtrunc
  rw [show wrap32 (0xFFFFFF * 0) = 0 from by decide]
  norm_num

/-- C6 counterexample: the claim `colorOf(1000,1000) = 0` (and the claimed
formula `floor(0xFFFFFF*iterations/max)`, which would give `0xFFFFFF` there)
both fail on the source: the `int` product `0xFFFFFF*1000` wraps around
32 bits to `-402654184`, so the function returns `-402654`; likewise
`colorOf(500,1000)` is `-201327`, not approximately half of `0xFFFFFF`. -/
theorem iteration_to_color_overflow :
    iteration_to_color 1000 1000 = -402654 ∧ (-402654 : ℤ) ≠ 0 ∧
    (-402654 : ℤ) ≠ 0xFFFFFF ∧
    iteration_to_color 500 1000 = -201327 :=
  ⟨color_at_1000, by decide, by decide, color_at_500⟩

/-- C6 amended: on the range where the `int` product does not overflow
(`0xFFFFFF * iters < 2^31`, i.e. `iters ≤ 127`), `iteration_to_color`
does compute `floor(0xFFFFFF * iters / max)`; the claimed value
`colorOf(0,1000) = 0` holds, but `colorOf(1000,1000)` is `-402654`
(two's-complement wrap-around of the overflowing product, then truncation),
not `0`, and `colorOf(500,1000)` is `-201327`, not approximately
`0xFFFFFF/2`. -/
theorem iteration_to_color_spec :
    (∀ iters maxI : ℤ, 0 ≤ iters → iters ≤ maxI → 1 ≤ maxI →
      0xFFFFFF * iters < 2 ^ 31 →
      iteration_to_color iters maxI = ⌊((0xFFFFFF * iters : ℤ) : ℚ) / ((maxI : ℤ) : ℚ)⌋) ∧
    iteration_to_color 0 1000 = 0 ∧
    iteration_to_color 1000 1000 = -402654 ∧
    iteration_to_color 500 1000 = -201327 := by
  refine ⟨?_, color_at_0, color_at_1000, color_at_500⟩
  intro iters maxI h0 _hle h1 hov
  unfold iteration_to_color
  rw [wrap32_eq_self (by positivity) hov]
  apply qtrunc_eq_floor
  apply div_nonneg
  · exact_mod_cast by positivity
  · exact_mod_cast by omega

/-- C6 amended witness: the no-overflow formula at `iters = 100`,
`max = 1000`. -/
theorem iteration_to_color_spec_witness :
    (0 : ℤ) ≤ 100 ∧ (100 : ℤ) ≤ 1000 ∧ (1 : ℤ) ≤ 1000 ∧
    (0xFFFFFF : ℤ) * 100 < 2 ^ 31 ∧
    iteration_to_color 100 1000 = ⌊((0xFFFFFF * 100 : ℤ) : ℚ) / ((1000 : ℤ) : ℚ)⌋ :=
  ⟨by decide, by decide, by decide, by decide,
    iteration_to_color_spec.1 100 1000 (by decide) (by decide) (by decide) (by decide)⟩

/-! ## RowBand partitioning: `compute_image` (mandel.c lines 261-287)

Thread `t` gets rows `[t*rows_per_thread, t*rows_per_thread + rows_per_thread)`
with `rows_per_thread = height / num_threads`; the last thread's upper bound
additionally absorbs `height % num_threads`. -/

def bandStart (h T t : Nat) : Nat := t * (h / T)

def bandEnd (h T t : Nat) : Nat :=
  t * (h / T) + h / T + (if t = T - 1 then h % T else 0)

def computeBands (h T : Nat) : List (Nat × Nat) :=
  (List.range T).map fun t => (bandStart h T t, bandEnd h T t)

def bandRows (b : Nat × Nat) : List Nat := List.range' b.1 (b.2 - b.1)

theorem flatMap_congr {α β : Type} {l : List α} {f g : α → List β}
    (h : ∀ a ∈ l, f a = g a) : l.flatMap f = l.flatMap g := by
  induction l with
  | nil => rfl
  | cons x xs ih =>
    rw [List.flatMap_cons, List.flatMap_cons, h x (List.mem_cons_self x xs),
      ih fun a ha => h a (List.mem_cons_of_mem x ha)]

def bandRowsAt (h T t : Nat) : List Nat :=
  List.range' (bandStart h T t) (bandEnd h T t - bandStart h T t)

theorem computeBands_flatMap (h T : Nat) :
    (computeBands h T).flatMap bandRows = (List.range T).flatMap (bandRowsAt h T) := by
  unfold computeBands bandRowsAt bandRows
  rw [List.flatMap_map]

theorem bandRowsAt_of_ne (h T t : Nat) (ht : t ≠ T - 1) :
    bandRowsAt h T t = List.range' (t * (h / T)) (h / T) := by
  unfold bandRowsAt bandEnd bandStart
  rw [if_neg ht]
  have harith : t * (h / T) + h / T + 0 - t * (h / T) = h / T := by
    generalize t * (h / T) = b
    generalize h / T = a
    omega
  rw [harith]

theorem bandRowsAt_last (h T : Nat) :
    bandRowsAt h T (T - 1) = List.range' ((T - 1) * (h / T)) (h / T + h % T) := by
  unfold bandRowsAt bandEnd bandStart
  rw [if_pos rfl]
  have harith : (T - 1) * (h / T) + h / T + h % T - (T - 1) * (h / T) =
      h / T + h % T := by
    generalize (T - 1) * (h / T) = b
    generalize h / T = a
    generalize h % T = r
    omega
  rw [harith]

theorem uniform_flatten (q : Nat) : ∀ m : Nat,
    (List.range m).flatMap (fun t => List.range' (t * q) q) = List.range' 0 (m * q) := by
  intro m
  induction m with
  | zero => simp
  | succ k ih =>
    rw [List.range_succ, List.flatMap_append, ih]
    have h1 : [k].flatMap (fun t => List.range' (t * q) q) = List.range' (0 + k * q) q := by
      simp
    rw [h1, List.range'_append_1, show q + k * q = (k + 1) * q from by ring]

theorem bands_flatten (h T : Nat) (hT : 1 ≤ T) :
    (computeBands h T).flatMap bandRows = List.range h := by
  obtain ⟨m, rfl⟩ : ∃ m, T = m + 1 := ⟨T - 1, by omega⟩
  rw [computeBands_flatMap, List.range_succ, List.flatMap_append]
  have hmain : (List.range m).flatMap (bandRowsAt h (m + 1)) =
      List.range' 0 (m * (h / (m + 1))) := by
    rw [flatMap_congr (g := fun t => List.range' (t * (h / (m + 1))) (h / (m + 1)))]
    · exact uniform_flatten _ m
    · intro t ht
      exact bandRowsAt_of_ne h (m + 1) t (by have := List.mem_range.mp ht; omega)
  have hlast : [m].flatMap (bandRowsAt h (m + 1)) =
      List.range' (0 + m * (h / (m + 1))) (h / (m + 1) + h % (m + 1)) := by
    simp only [List.flatMap_cons, List.flatMap_nil, List.append_nil]
    have hl := bandRowsAt_last h (m + 1)
    simp only [Nat.add_sub_cancel] at hl
    rw [hl, Nat.zero_add]
  rw [hmain, hlast, List.range'_append_1, List.range_eq_range']
  have hd := Nat.div_add_mod h (m + 1)
  rw [Nat.succ_mul] at hd
  have harith : h / (m + 1) + h % (m + 1) + m * (h / (m + 1)) = h := by
    obtain ⟨q, hq⟩ : ∃ x, h / (m + 1) = x := ⟨_, rfl⟩
    obtain ⟨r, hr⟩ : ∃ x, h % (m + 1) = x := ⟨_, rfl⟩
    rw [hq, hr] at hd ⊢
    obtain ⟨b, hb⟩ : ∃ x, m * q = x := ⟨_, rfl⟩
    rw [hb] at hd ⊢
    omega
  rw [harith]

theorem band_sizes_sum (h T : Nat) (hT : 1 ≤ T) :
    ((computeBands h T).map (fun b => b.2 - b.1)).sum = h := by
  have h1 := congrArg List.length (bands_flatten h T hT)
  rw [List.length_flatMap, List.length_range] at h1
  have h2 : (computeBands h T).map (List.length ∘ bandRows) =
      (computeBands h T).map (fun b => b.2 - b.1) := by
    apply List.map_congr_left
    intro b _
    simp [bandRows]
  rw [← h2]
  exact h1

/-- C3: for `height ≥ 1` and `threadCount ∈ [1, height]`, the per-thread
row bands computed by `compute_image` are contiguous (each band's end is the
next band's start), every band except the last has the base size
`height/threadCount`, the last band absorbs the remainder
`height % threadCount`, band sizes sum to `height`, and the concatenation of
the bands' row ranges, in thread order, is exactly `[0, height)` — each row
covered exactly once. -/
theorem compute_bands_partition (h T : Nat) (_hh : 1 ≤ h) (hT : 1 ≤ T)
    (_hTh : T ≤ h) :
    (computeBands h T).flatMap bandRows = List.range h ∧
    ((computeBands h T).map (fun b => b.2 - b.1)).sum = h ∧
    (∀ t, t + 1 < T → bandEnd h T t = bandStart h T (t + 1)) ∧
    (∀ t, t + 1 < T → bandEnd h T t - bandStart h T t = h / T) ∧
    bandEnd h T (T - 1) - bandStart h T (T - 1) = h / T + h % T := by
  refine ⟨bands_flatten h T hT, band_sizes_sum h T hT, ?_, ?_, ?_⟩
  · intro t ht
    unfold bandEnd bandStart
    rw [if_neg (show t ≠ T - 1 from by omega), Nat.succ_mul]
    generalize t * (h / T) = b
    generalize h / T = a
    omega
  · intro t ht
    unfold bandEnd bandStart
    rw [if_neg (show t ≠ T - 1 from by omega)]
    generalize t * (h / T) = b
    generalize h / T = a
    omega
  · unfold bandEnd bandStart
    rw [if_pos rfl]
    generalize (T - 1) * (h / T) = b
    generalize h / T = a
    generalize h % T = r
    omega

/-- C3 witness: the partition property at `height = 5`, `threadCount = 2`
(bands `[0,2)` and `[2,5)`). -/
theorem compute_bands_partition_witness :
    1 ≤ 5 ∧ 1 ≤ 2 ∧ 2 ≤ 5 ∧
    ((computeBands 5 2).flatMap bandRows = List.range 5 ∧
     ((computeBands 5 2).map (fun b => b.2 - b.1)).sum = 5 ∧
     (∀ t, t + 1 < 2 → bandEnd 5 2 t = bandStart 5 2 (t + 1)) ∧
     (∀ t, t + 1 < 2 → bandEnd 5 2 t - bandStart 5 2 t = 5 / 2) ∧
     bandEnd 5 2 (2 - 1) - bandStart 5 2 (2 - 1) = 5 / 2 + 5 % 2) :=
  ⟨by decide, by decide, by decide,
    compute_bands_partition 5 2 (by decide) (by decide) (by decide)⟩

/-- C10: when `threadCount > height`, the base band size `height/threadCount`
is `0`, so every thread except the last gets the empty row range `[0,0)` and
the last thread gets all of `[0,height)`; the bands still cover `[0,height)`
exactly once. -/
theorem compute_bands_overcommit (h T : Nat) (hT : 1 ≤ T) (hlt : h < T) :
    (∀ t, t + 1 < T → bandStart h T t = 0 ∧ bandEnd h T t = 0) ∧
    bandStart h T (T - 1) = 0 ∧ bandEnd h T (T - 1) = h ∧
    (computeBands h T).flatMap bandRows = List.range h := by
  have hq : h / T = 0 := Nat.div_eq_of_lt hlt
  have hr : h % T = h := Nat.mod_eq_of_lt hlt
  refine ⟨?_, ?_, ?_, bands_flatten h T hT⟩
  · intro t ht
    unfold bandStart bandEnd
    rw [hq, if_neg (show t ≠ T - 1 from by omega)]
    omega
  · unfold bandStart
    rw [hq, Nat.mul_zero]
  · unfold bandEnd
    rw [hq, hr, if_pos rfl]
    omega

/-- C10 witness: `height = 3`, `threadCount = 5`: threads 0-3 get `[0,0)`,
thread 4 gets `[0,3)`. -/
theorem compute_bands_overcommit_witness :
    1 ≤ 5 ∧ 3 < 5 ∧
    ((∀ t, t + 1 < 5 → bandStart 3 5 t = 0 ∧ bandEnd 3 5 t = 0) ∧
     bandStart 3 5 (5 - 1) = 0 ∧ bandEnd 3 5 (5 - 1) = 3 ∧
     (computeBands 3 5).flatMap bandRows = List.range 3) :=
  ⟨by decide, by decide, compute_bands_overcommit 3 5 (by decide) (by decide)⟩

/-! ## FrameRenderer: `compute_image_thread` + `compute_image`
(mandel.c lines 241-287)

Each thread writes, for every row `j` in its band and every column
`i < width`, the pixel value determined purely by `(i, j)` and the frame
parameters (`compute_image_thread`; its loop increment is written `j+++`
in the source, read as `j++`).  The raster starts out as the background
set by `setImageCOLOR(img, 0)`.  Because the bands are disjoint and every
write at `(i, j)` stores the same pure function of `(i, j)`, the fold
order over bands is immaterial, which is exactly why the render result is
independent of the thread count. -/

def mandelPixel (xc yc sc : ℚ) (w h maxI : Nat) (i j : Nat) : ℤ :=
  iteration_to_color
    (Int.ofNat (iterations_at_point
      ((xc - sc / 2) + (i : ℚ) * ((xc + sc / 2) - (xc - sc / 2)) / (w : ℚ))
      ((yc - sc / 2) + (j : ℚ) * ((yc + sc / 2) - (yc - sc / 2)) / (h : ℚ))
      maxI))
    (Int.ofNat maxI)

def applyBand (pix : Nat → Nat → ℤ) (w : Nat) (b : Nat × Nat)
    (f : Nat → Nat → ℤ) : Nat → Nat → ℤ :=
  fun i j => if b.1 ≤ j ∧ j < b.2 ∧ i < w then pix i j else f i j

def renderImage (pix : Nat → Nat → ℤ) (w h T : Nat) : Nat → Nat → ℤ :=
  (computeBands h T).foldr (applyBand pix w) fun _ _ => 0

theorem foldr_apply_covered {pix : Nat → Nat → ℤ} {w : Nat}
    {z : Nat → Nat → ℤ} {i j : Nat} :
    ∀ {bands : List (Nat × Nat)}, (∃ b ∈ bands, b.1 ≤ j ∧ j < b.2) → i < w →
      (bands.foldr (applyBand pix w) z) i j = pix i j := by
  intro bands
  induction bands with
  | nil => intro hb _; simp at hb
  | cons b bs ih =>
    intro hb hi
    show applyBand pix w b (bs.foldr (applyBand pix w) z) i j = pix i j
    unfold applyBand
    by_cases hc : b.1 ≤ j ∧ j < b.2 ∧ i < w
    · rw [if_pos hc]
    · rw [if_neg hc]
      rcases hb with ⟨b', hm, hcov⟩
      rcases List.mem_cons.mp hm with rfl | hm'
      · exact absurd ⟨hcov.1, hcov.2, hi⟩ hc
      · exact ih ⟨b', hm', hcov⟩ hi

theorem foldr_apply_uncovered {pix : Nat → Nat → ℤ} {w : Nat}
    {z : Nat → Nat → ℤ} {i j : Nat} :
    ∀ {bands : List (Nat × Nat)},
      (∀ b ∈ bands, ¬(b.1 ≤ j ∧ j < b.2 ∧ i < w)) →
      (bands.foldr (applyBand pix w) z) i j = z i j := by
  intro bands
  induction bands with
  | nil => intro _; rfl
  | cons b bs ih =>
    intro hb
    show applyBand pix w b (bs.foldr (applyBand pix w) z) i j = z i j
    unfold applyBand
    rw [if_neg (hb b (List.mem_cons_self b bs))]
    exact ih fun b' hm => hb b' (List.mem_cons_of_mem b hm)

theorem renderImage_eq (pix : Nat → Nat → ℤ) (w h T : Nat) (hT : 1 ≤ T)
    (i j : Nat) :
    renderImage pix w h T i j = if j < h ∧ i < w then pix i j else 0 := by
  by_cases hj : j < h ∧ i < w
  · rw [if_pos hj]
    apply foldr_apply_covered ?_ hj.2
    have hmem : j ∈ (computeBands h T).flatMap bandRows := by
      rw [bands_flatten h T hT]
      exact List.mem_range.mpr hj.1
    rcases List.mem_flatMap.mp hmem with ⟨b, hb, hjb⟩
    unfold bandRows at hjb
    rcases List.mem_range'_1.mp hjb with ⟨hle, hlt⟩
    exact ⟨b, hb, hle, by omega⟩
  · rw [if_neg hj]
    apply foldr_apply_uncovered
    intro b hb hcon
    apply hj
    refine ⟨?_, hcon.2.2⟩
    have hmem : j ∈ (computeBands h T).flatMap bandRows := by
      apply List.mem_flatMap.mpr
      refine ⟨b, hb, ?_⟩
      unfold bandRows
      exact List.mem_range'_1.mpr ⟨hcon.1, by omega⟩
    rw [bands_flatten h T hT] at hmem
    exact List.mem_range.mp hmem

/-- C4: rendering a frame is deterministic (the embedded renderer is a pure
function of the frame parameters) and independent of the thread count: for
any center, scale, width, height and iteration limit, and any two thread
counts `≥ 1`, the rendered rasters agree at every pixel — in particular the
claim's configuration `center=(0,0), scale=4, width=height=100, max=100`
with 1 thread versus 8 threads. -/
theorem render_thread_count_independent (xc yc sc : ℚ) (w h maxI t1 t2 : Nat)
    (h1 : 1 ≤ t1) (h2 : 1 ≤ t2) (i j : Nat) :
    renderImage (mandelPixel xc yc sc w h maxI) w h t1 i j =
      renderImage (mandelPixel xc yc sc w h maxI) w h t2 i j := by
  rw [renderImage_eq _ w h t1 h1, renderImage_eq _ w h t2 h2]

/-- C4 witness: the claim's configuration, 1 thread versus 8 threads, at
pixel `(0,0)`. -/
theorem render_thread_count_independent_witness :
    1 ≤ 1 ∧ 1 ≤ 8 ∧
    renderImage (mandelPixel 0 0 4 100 100 100) 100 100 1 0 0 =
      renderImage (mandelPixel 0 0 4 100 100 100) 100 100 8 0 0 :=
  ⟨by decide, by decide,
    render_thread_count_independent 0 0 4 100 100 100 1 8 (by decide)
      (by decide) 0 0⟩

/-! ## FrameScheduler frame assignment and FrameNamer
(mandel.c lines 128-173)

Child `c` (0-based) gets the 1-based frame numbers from
`start_frame = c*frames_per_child + min(c, remaining_frames) + 1` up to and
including `end_frame = start_frame + frames_per_child - 1`, plus one more
frame when `c < remaining_frames`: the `NUM_FRAMES % num_children`
remainder frames go one each to the FIRST children, not to the last block.
For frame number `f` the loop body uses `scale = xscale / (1 + f*0.1)` and
output name `<prefix>_<f>.jpg`. -/

def startFrame (fc nc c : Nat) : Nat :=
  c * (fc / nc) + min c (fc % nc) + 1

def endFrame (fc nc c : Nat) : Nat :=
  startFrame fc nc c + fc / nc - 1 + (if c < fc % nc then 1 else 0)

def childFrames (fc nc c : Nat) : List Nat :=
  List.range' (startFrame fc nc c) (endFrame fc nc c + 1 - startFrame fc nc c)

def allFrames (fc nc : Nat) : List Nat :=
  (List.range nc).flatMap (childFrames fc nc)

def frameScale (xscale : ℚ) (f : Nat) : ℚ :=
  xscale / (1 + (f : ℚ) * (1 / 10))

def frameOutfile (pfx : String) (f : Nat) : String :=
  pfx ++ "_" ++ toString f ++ ".jpg"

def frameJob (xscale : ℚ) (pfx : String) (f : Nat) : ℚ × String :=
  (frameScale xscale f, frameOutfile pfx f)

theorem childFrames_eq (fc nc c : Nat) :
    childFrames fc nc c = List.range' (startFrame fc nc c)
      (fc / nc + if c < fc % nc then 1 else 0) := by
  unfold childFrames
  have harith : endFrame fc nc c + 1 - startFrame fc nc c =
      fc / nc + (if c < fc % nc then 1 else 0) := by
    unfold endFrame startFrame
    obtain ⟨q, hq⟩ : ∃ x, fc / nc = x := ⟨_, rfl⟩
    obtain ⟨r, hr⟩ : ∃ x, fc % nc = x := ⟨_, rfl⟩
    rw [hq, hr]
    obtain ⟨a, ha⟩ : ∃ x, c * q = x := ⟨_, rfl⟩
    rw [ha]
    by_cases hc : c < r
    · rw [if_pos hc]
      omega
    · rw [if_neg hc]
      omega
  rw [harith]

theorem childFrames_length (fc nc c : Nat) :
    (childFrames fc nc c).length = fc / nc + if c < fc % nc then 1 else 0 := by
  rw [childFrames_eq, List.length_range']

theorem startFrame_chain (fc nc c : Nat) :
    startFrame fc nc (c + 1) =
      startFrame fc nc c + (fc / nc + if c < fc % nc then 1 else 0) := by
  unfold startFrame
  rw [Nat.succ_mul]
  obtain ⟨q, hq⟩ : ∃ x, fc / nc = x := ⟨_, rfl⟩
  obtain ⟨r, hr⟩ : ∃ x, fc % nc = x := ⟨_, rfl⟩
  rw [hq, hr]
  obtain ⟨a, ha⟩ : ∃ x, c * q = x := ⟨_, rfl⟩
  rw [ha]
  by_cases hc : c < r
  · rw [if_pos hc]
    omega
  · rw [if_neg hc]
    omega

theorem start_add_sum (s len : Nat → Nat) : ∀ m : Nat,
    (∀ c, c < m → s (c + 1) = s c + len c) →
    s m = s 0 + ((List.range m).map len).sum := by
  intro m
  induction m with
  | zero => intro _; simp
  | succ k ih =>
    intro hch
    rw [List.range_succ, List.map_append, List.sum_append]
    have hk := hch k (Nat.lt_succ_self k)
    rw [hk, ih fun c hc => hch c (Nat.lt_succ_of_lt hc)]
    have h1 : ([k].map len).sum = len k := by simp
    rw [h1]
    omega

theorem chain_flatMap (s len : Nat → Nat) : ∀ m : Nat,
    (∀ c, c + 1 < m → s (c + 1) = s c + len c) →
    (List.range m).flatMap (fun c => List.range' (s c) (len c)) =
      List.range' (s 0) (((List.range m).map len).sum) := by
  intro m
  induction m with
  | zero => intro _; simp
  | succ k ih =>
    intro hch
    rw [List.range_succ, List.flatMap_append, List.map_append, List.sum_append,
      ih fun c hc => hch c (by omega)]
    have hs : s k = s 0 + ((List.range k).map len).sum :=
      start_add_sum s len k fun c hc => hch c (by omega)
    have h1 : [k].flatMap (fun c => List.range' (s c) (len c)) =
        List.range' (s 0 + ((List.range k).map len).sum) (len k) := by
      simp [hs]
    have h2 : ([k].map len).sum = len k := by simp
    rw [h1, h2, List.range'_append_1, Nat.add_comm]

theorem frames_len_sum (q r : Nat) : ∀ m : Nat,
    ((List.range m).map (fun c => q + if c < r then 1 else 0)).sum =
      m * q + min m r := by
  intro m
  induction m with
  | zero => simp
  | succ k ih =>
    rw [List.range_succ, List.map_append, List.sum_append, ih]
    have h1 : ([k].map fun c => q + if c < r then 1 else 0).sum =
        q + if k < r then 1 else 0 := by simp
    rw [h1, Nat.succ_mul]
    obtain ⟨a, ha⟩ : ∃ x, k * q = x := ⟨_, rfl⟩
    rw [ha]
    by_cases hk : k < r
    · rw [if_pos hk]
      omega
    · rw [if_neg hk]
      omega

theorem allFrames_eq (fc nc : Nat) (hnc : 1 ≤ nc) :
    allFrames fc nc = List.range' 1 fc := by
  unfold allFrames
  rw [flatMap_congr fun c _ => childFrames_eq fc nc c,
    chain_flatMap (startFrame fc nc) _ nc fun c _ => startFrame_chain fc nc c]
  have hs0 : startFrame fc nc 0 = 1 := by
    unfold startFrame
    simp
  rw [hs0, frames_len_sum]
  have hmod : min nc (fc % nc) = fc % nc :=
    Nat.min_eq_right (Nat.le_of_lt (Nat.mod_lt fc (by omega)))
  rw [hmod]
  have hd := Nat.div_add_mod fc nc
  rw [hd]

/-- C1 counterexample: with `frameCount = 50` and `workerProcesses = 3` the
source gives child 0 a block of 17 frames (not the base size `50/3 = 16`)
and the LAST child only 16 frames (not `50/3 + 50%3 = 18`): the remainder
frames are not appended to the last block as the claim's stated policy
requires — they go to the first children. -/
theorem child_frames_not_tail_loaded :
    (childFrames 50 3 0).length = 17 ∧ (childFrames 50 3 2).length = 16 ∧
    (17 : Nat) ≠ 50 / 3 ∧ (16 : Nat) ≠ 50 / 3 + 50 % 3 :=
  ⟨by decide, by decide, by decide, by decide⟩

/-- C1 corrected: the child frame blocks are contiguous, disjoint, one per
process, and cover the frame numbers `1..frameCount` exactly once (their
in-order concatenation is exactly `[1, ..., frameCount]`); each block has
base size `frameCount/workerProcesses`, but the
`frameCount % workerProcesses` extra frames go one each to the FIRST
`frameCount % workerProcesses` blocks, not to the last block; for
`frameCount = 50`, `workerProcesses = 3` the block sizes are
`[17, 17, 16]`. -/
theorem child_frames_partition (fc nc : Nat) (hnc : 1 ≤ nc) :
    allFrames fc nc = List.range' 1 fc ∧
    (∀ c, (childFrames fc nc c).length =
      fc / nc + if c < fc % nc then 1 else 0) ∧
    (List.range 3).map (fun c => (childFrames 50 3 c).length) = [17, 17, 16] :=
  ⟨allFrames_eq fc nc hnc, fun c => childFrames_length fc nc c, by decide⟩

/-- C1 corrected witness: the partition at `frameCount = 50`,
`workerProcesses = 3`. -/
theorem child_frames_partition_witness :
    1 ≤ 3 ∧ (allFrames 50 3 = List.range' 1 50 ∧
      (∀ c, (childFrames 50 3 c).length =
        50 / 3 + if c < 50 % 3 then 1 else 0) ∧
      (List.range 3).map (fun c => (childFrames 50 3 c).length) = [17, 17, 16]) :=
  ⟨by decide, child_frames_partition 50 3 (by decide)⟩

/-- C7 counterexample: the sequence of generated frames is `1, 2, ..., 50`
(1-based), so the frame at 0-based index 0 is frame number 1, whose scale is
`4/(1 + 1*0.1) = 40/11 ≠ 4`, contradicting the claim that index 0 yields
`scale = baseScale`; and index 49 is frame number 50, whose scale is
`4/(1 + 50*0.1) = 2/3`, not the claimed `4/5.9`.  (The output name of the
first frame is `mandel_1.jpg`, as the claim says.) -/
theorem frame_scale_not_index_based :
    (allFrames 50 3).getD 0 0 = 1 ∧
    frameScale 4 1 = 40 / 11 ∧ (40 / 11 : ℚ) ≠ 4 ∧
    frameOutfile "mandel" 1 = "mandel_1.jpg" ∧
    frameScale 4 50 = 2 / 3 ∧ (2 / 3 : ℚ) ≠ 4 / (59 / 10) :=
  ⟨by decide, by unfold frameScale; norm_num, by norm_num, by decide,
    by unfold frameScale; norm_num, by norm_num⟩

/-- C7 corrected: the frames a run generates are the 1-based numbers
`1..50` in order (so 0-based index `i` corresponds to frame number `i+1`),
and for frame number `f` the per-frame scale is `baseScale / (1 + f/10)`
with output name `<prefix>_<f>.jpg`; hence index 0 yields scale
`baseScale/1.1` (`40/11` for baseScale 4) with name `mandel_1.jpg`, and
index 49 yields scale `4/6 = 2/3`. -/
theorem frame_job_spec :
    (∀ nc, 1 ≤ nc → allFrames 50 nc = List.range' 1 50) ∧
    (∀ (xs : ℚ) (p : String) (f : Nat),
      frameJob xs p f = (xs / (1 + (f : ℚ) / 10),
        p ++ "_" ++ toString f ++ ".jpg")) ∧
    frameJob 4 "mandel" 1 = (40 / 11, "mandel_1.jpg") ∧
    frameJob 4 "mandel" 50 = (2 / 3, "mandel_50.jpg") := by
  refine ⟨fun nc hnc => allFrames_eq 50 nc hnc, ?_, ?_, ?_⟩
  · intro xs p f
    unfold frameJob frameScale frameOutfile
    rw [mul_one_div]
  · unfold frameJob frameScale frameOutfile
    simp only [Prod.mk.injEq]
    exact ⟨by norm_num, by decide⟩
  · unfold frameJob frameScale frameOutfile
    simp only [Prod.mk.injEq]
    exact ⟨by norm_num, by decide⟩

/-- C7 corrected witness: the generated frame sequence for 3 children. -/
theorem frame_job_spec_witness :
    1 ≤ 3 ∧ allFrames 50 3 = List.range' 1 50 :=
  ⟨by decide, frame_job_spec.1 3 (by decide)⟩

/-! ## OrderToken hand-off chain (mandel.c lines 131-137 and 147-182)

Semaphore `i` is created with initial value `1` for `i = 0` and `0`
otherwise.  Every child first does `sem_wait(semaphores[child])`, then
renders all of its assigned frames, then posts `semaphores[child + 1]`
(if that child exists) and exits.  This is embedded as an interleaving
transition system: a state holds the semaphore values and each child's
phase (`waiting`, `running r` with `r` frames still to generate, or
`done`); `acquire` models `sem_wait` succeeding, `render` models
generating one frame, `finish` models the `sem_post` to the successor
plus `exit(0)`.  A child that is `done` necessarily executed `finish`,
which requires `running 0`: it had rendered every one of its assigned
frames before handing the token on. -/

inductive Phase where
  | waiting : Phase
  | running : Nat → Phase
  | done : Phase
deriving DecidableEq

structure TState where
  sem : Nat → Nat
  ph : Nat → Phase

def initState (_n : Nat) : TState :=
  { sem := fun i => if i = 0 then 1 else 0, ph := fun _ => Phase.waiting }

def framesOf (n : Nat) : Nat → Nat := fun i => (childFrames 50 n i).length

inductive Step (n : Nat) (frames : Nat → Nat) : TState → TState → Prop where
  | acquire (s : TState) (i : Nat) (hi : i < n) (hw : s.ph i = Phase.waiting)
      (hs : 0 < s.sem i) :
      Step n frames s ⟨Function.update s.sem i (s.sem i - 1),
        Function.update s.ph i (Phase.running (frames i))⟩
  | render (s : TState) (i : Nat) (hi : i < n) (r : Nat)
      (hr : s.ph i = Phase.running (r + 1)) :
      Step n frames s ⟨s.sem, Function.update s.ph i (Phase.running r)⟩
  | finish (s : TState) (i : Nat) (hi : i < n) (hf : s.ph i = Phase.running 0) :
      Step n frames s
        ⟨if i + 1 < n then Function.update s.sem (i + 1) (s.sem (i + 1) + 1)
          else s.sem,
         Function.update s.ph i Phase.done⟩

def Reaches (n : Nat) (frames : Nat → Nat) (s : TState) : Prop :=
  Relation.ReflTransGen (Step n frames) (initState n) s

def MutEx (s : TState) : Prop :=
  ∀ i j ri rj, s.ph i = Phase.running ri → s.ph j = Phase.running rj → i = j

def DoneBelow (s : TState) : Prop :=
  ∀ i ri, s.ph i = Phase.running ri → ∀ j, j < i → s.ph j = Phase.done

def OneToken (s : TState) : Prop :=
  (∀ i j, 0 < s.sem i → 0 < s.sem j → i = j) ∧
  (∀ i j ri, 0 < s.sem i → s.ph j = Phase.running ri → False)

def InitFacts (n : Nat) : Prop :=
  (initState n).sem 0 = 1 ∧ (∀ i, 0 < i → (initState n).sem i = 0) ∧
  (∀ i, (initState n).ph i = Phase.waiting)

def ChainInv (n : Nat) (s : TState) : Prop :=
  ∃ f, f ≤ n ∧
    (∀ j, j < f → s.ph j = Phase.done) ∧
    (∀ j, f < j → s.ph j = Phase.waiting) ∧
    (∀ j, j ≠ f → s.sem j = 0) ∧
    (f < n → (s.ph f = Phase.waiting ∧ s.sem f = 1) ∨
      ((∃ r, s.ph f = Phase.running r) ∧ s.sem f = 0)) ∧
    (f = n → s.ph f = Phase.waiting ∧ s.sem f = 0)

theorem inv_init (n : Nat) (hn : 1 ≤ n) : ChainInv n (initState n) := by
  refine ⟨0, Nat.zero_le n, fun j hj => absurd hj (Nat.not_lt_zero j),
    fun j _ => rfl, ?_, ?_, ?_⟩
  · intro j hj
    show (if j = 0 then 1 else 0) = 0
    rw [if_neg hj]
  · intro _
    left
    refine ⟨rfl, ?_⟩
    show (if (0 : Nat) = 0 then 1 else 0) = 1
    rw [if_pos rfl]
  · intro h0
    omega

theorem inv_step {n : Nat} {frames : Nat → Nat} {s s' : TState}
    (hinv : ChainInv n s) (hstep : Step n frames s s') : ChainInv n s' := by
  obtain ⟨f, hfn, hdone, hwait, hsem, hfront, hend⟩ := hinv
  cases hstep with
  | acquire i hi hw hs =>
    have hif : i = f := by
      by_contra hne
      rw [hsem i hne] at hs
      exact Nat.lt_irrefl 0 hs
    subst hif
    have hs1 : s.sem i = 1 := by
      rcases hfront hi with ⟨_, h1⟩ | ⟨⟨r, hrun⟩, _⟩
      · exact h1
      · rw [hw] at hrun
        simp at hrun
    refine ⟨i, by omega, ?_, ?_, ?_, ?_, ?_⟩
    · intro j hj
      show Function.update s.ph i (Phase.running (frames i)) j = Phase.done
      rw [Function.update_noteq (by omega)]
      exact hdone j hj
    · intro j hj
      show Function.update s.ph i (Phase.running (frames i)) j = Phase.waiting
      rw [Function.update_noteq (by omega)]
      exact hwait j hj
    · intro j hj
      show Function.update s.sem i (s.sem i - 1) j = 0
      rw [Function.update_noteq hj]
      exact hsem j hj
    · intro _
      right
      refine ⟨⟨frames i, ?_⟩, ?_⟩
      · show Function.update s.ph i (Phase.running (frames i)) i =
          Phase.running (frames i)
        rw [Function.update_same]
      · show Function.update s.sem i (s.sem i - 1) i = 0
        rw [Function.update_same, hs1]
    · intro hcon
      omega
  | render i hi r hr =>
    have hif : i = f := by
      rcases Nat.lt_trichotomy i f with hlt | heq | hgt
      · rw [hdone i hlt] at hr
        simp at hr
      · exact heq
      · rw [hwait i hgt] at hr
        simp at hr
    subst hif
    have hsem0 : s.sem i = 0 := by
      rcases hfront hi with ⟨hwl, _⟩ | ⟨_, h0⟩
      · rw [hwl] at hr
        simp at hr
      · exact h0
    refine ⟨i, by omega, ?_, ?_, ?_, ?_, ?_⟩
    · intro j hj
      show Function.update s.ph i (Phase.running r) j = Phase.done
      rw [Function.update_noteq (by omega)]
      exact hdone j hj
    · intro j hj
      show Function.update s.ph i (Phase.running r) j = Phase.waiting
      rw [Function.update_noteq (by omega)]
      exact hwait j hj
    · intro j hj
      show s.sem j = 0
      exact hsem j hj
    · intro _
      right
      refine ⟨⟨r, ?_⟩, hsem0⟩
      show Function.update s.ph i (Phase.running r) i = Phase.running r
      rw [Function.update_same]
    · intro hcon
      omega
  | finish i hi hf =>
    have hif : i = f := by
      rcases Nat.lt_trichotomy i f with hlt | heq | hgt
      · rw [hdone i hlt] at hf
        simp at hf
      · exact heq
      · rw [hwait i hgt] at hf
        simp at hf
    subst hif
    have hsem0 : s.sem i = 0 := by
      rcases hfront hi with ⟨hwl, _⟩ | ⟨_, h0⟩
      · rw [hwl] at hf
        simp at hf
      · exact h0
    refine ⟨i + 1, by omega, ?_, ?_, ?_, ?_, ?_⟩
    · intro j hj
      show Function.update s.ph i Phase.done j = Phase.done
      by_cases hji : j = i
      · subst hji
        rw [Function.update_same]
      · rw [Function.update_noteq hji]
        exact hdone j (by omega)
    · intro j hj
      show Function.update s.ph i Phase.done j = Phase.waiting
      rw [Function.update_noteq (by omega)]
      exact hwait j (by omega)
    · intro j hj
      show (if i + 1 < n then
          Function.update s.sem (i + 1) (s.sem (i + 1) + 1) else s.sem) j = 0
      by_cases hn2 : i + 1 < n
      · rw [if_pos hn2, Function.update_noteq hj]
        by_cases hji : j = i
        · subst hji
          exact hsem0
        · exact hsem j hji
      · rw [if_neg hn2]
        by_cases hji : j = i
        · subst hji
          exact hsem0
        · exact hsem j hji
    · intro hn2
      left
      constructor
      · show Function.update s.ph i Phase.done (i + 1) = Phase.waiting
        rw [Function.update_noteq (by omega)]
        exact hwait (i + 1) (by omega)
      · show (if i + 1 < n then
            Function.update s.sem (i + 1) (s.sem (i + 1) + 1) else s.sem)
            (i + 1) = 1
        rw [if_pos hn2, Function.update_same, hsem (i + 1) (by omega)]
    · intro hn2
      constructor
      · show Function.update s.ph i Phase.done (i + 1) = Phase.waiting
        rw [Function.update_noteq (by omega)]
        exact hwait (i + 1) (by omega)
      · show (if i + 1 < n then
            Function.update s.sem (i + 1) (s.sem (i + 1) + 1) else s.sem)
            (i + 1) = 0
        rw [if_neg (by omega)]
        exact hsem (i + 1) (by omega)

theorem inv_reaches {n : Nat} {frames : Nat → Nat} {s : TState} (hn : 1 ≤ n)
    (h : Reaches n frames s) : ChainInv n s := by
  induction h with
  | refl => exact inv_init n hn
  | tail _ hbc ih => exact inv_step ih hbc

/-- C2: in every reachable state of the semaphore hand-off chain (with the
frame counts each child is actually assigned), at most one process is in its
rendering loop (`MutEx`), a process can be rendering only when every
lower-numbered process has finished all of its frames and exited
(`DoneBelow`), at most one token is available and none is available while
any process is rendering (`OneToken`); initially semaphore 0 holds the one
token and every process is waiting (`InitFacts`). -/
theorem token_chain_spec (n : Nat) (s : TState) (hn : 1 ≤ n)
    (hr : Reaches n (framesOf n) s) :
    MutEx s ∧ DoneBelow s ∧ OneToken s ∧ InitFacts n := by
  obtain ⟨f, hfn, hdone, hwait, hsem, hfront, hend⟩ := inv_reaches hn hr
  have hrun_eq : ∀ i ri, s.ph i = Phase.running ri → i = f := by
    intro i ri hri
    rcases Nat.lt_trichotomy i f with hlt | heq | hgt
    · rw [hdone i hlt] at hri
      simp at hri
    · exact heq
    · rw [hwait i hgt] at hri
      simp at hri
  have hsempos : ∀ i, 0 < s.sem i → i = f := by
    intro i hpos
    by_contra hne
    rw [hsem i hne] at hpos
    exact Nat.lt_irrefl 0 hpos
  refine ⟨?_, ?_, ⟨?_, ?_⟩, ?_, ?_, fun i => rfl⟩
  · intro i j ri rj hri hrj
    rw [hrun_eq i ri hri, hrun_eq j rj hrj]
  · intro i ri hri j hj
    have hieq := hrun_eq i ri hri
    subst hieq
    exact hdone j (by omega)
  · intro i j hpi hpj
    rw [hsempos i hpi, hsempos j hpj]
  · intro i j ri hpi hrj
    have hieq := hsempos i hpi
    have hjeq := hrun_eq j ri hrj
    rw [hieq] at hpi
    rw [hjeq] at hrj
    rcases Nat.lt_or_ge f n with hin | hin
    · rcases hfront hin with ⟨hwl, _⟩ | ⟨_, h0⟩
      · rw [hwl] at hrj
        simp at hrj
      · rw [h0] at hpi
        exact Nat.lt_irrefl 0 hpi
    · have hfeq : f = n := by omega
      subst hfeq
      rcases hend rfl with ⟨hwn, _⟩
      rw [hwn] at hrj
      simp at hrj
  · show (if (0 : Nat) = 0 then 1 else 0) = 1
    rw [if_pos rfl]
  · intro i hpos
    show (if i = 0 then 1 else 0) = 0
    rw [if_neg (by omega)]

/-- C2 witness: the initial state of a 1-child run is reachable and
satisfies the full ordering contract. -/
theorem token_chain_spec_witness :
    1 ≤ 1 ∧ (MutEx (initState 1) ∧ DoneBelow (initState 1) ∧
      OneToken (initState 1) ∧ InitFacts 1) :=
  ⟨Nat.le_refl 1, token_chain_spec 1 (initState 1) (Nat.le_refl 1)
    Relation.ReflTransGen.refl⟩

/-! ## Parent result and option handling (mandel.c lines 104-129, 186-198)

The `-t` handler exits with status 1 as soon as the thread count is outside
`[1, 20]`, before any partitioning or semaphore creation.  The `-c` handler
stores `atoi(optarg)` with no validation at all; the first use of
`num_children` is the division `NUM_FRAMES / num_children`, which faults
when it is zero.  After forking, the parent runs `while (wait(NULL) > 0) {}`
— the child statuses are discarded (`NULL` status pointer) — and then
returns 0 unconditionally. -/

def threadArgCheck (t : ℤ) : Except Unit ℤ :=
  if t < 1 ∨ t > 20 then Except.error () else Except.ok t

def childArgCheck (c : ℤ) : Except Unit ℤ := Except.ok c

def framesPerChildChecked (c : ℤ) : Option ℤ :=
  if c = 0 then none else some (Int.tdiv 50 c)

def parentWaitLoop : List ℤ → Unit
  | [] => ()
  | _ :: rest => parentWaitLoop rest

def parentResult (statuses : List ℤ) : ℤ :=
  match parentWaitLoop statuses with
  | () => 0

/-- C8: the claim says an abnormal child exit is surfaced as a non-zero
overall result, but the parent discards every child status
(`wait(NULL)`) and returns 0 unconditionally: with one child exiting with
status 1 the overall result is still 0, and indeed the result is 0 for
every possible combination of child statuses. -/
theorem parent_swallows_child_failure :
    parentResult [1] = 0 ∧ (∀ statuses : List ℤ, parentResult statuses = 0) ∧
    (0 : ℤ) ≠ 1 :=
  ⟨rfl, fun _ => rfl, by decide⟩

/-- C9: the claim says both invalid thread counts and non-positive process
counts are rejected before any work; the source rejects out-of-range thread
counts at option-parsing time (`threadArgCheck`), but the `-c` process count
is accepted unvalidated (`childArgCheck 0` and `childArgCheck (-3)`
succeed), and a zero process count then reaches the frame partitioning
division `NUM_FRAMES / num_children`, which faults
(`framesPerChildChecked 0 = none`) instead of being rejected. -/
theorem child_count_not_validated :
    threadArgCheck 0 = Except.error () ∧
    threadArgCheck 21 = Except.error () ∧
    threadArgCheck 5 = Except.ok 5 ∧
    childArgCheck 0 = Except.ok 0 ∧
    childArgCheck (-3) = Except.ok (-3) ∧
    framesPerChildChecked 0 = none :=
  ⟨rfl, rfl, rfl, rfl, rfl, rfl⟩
